import Mathlib

/-!
Verification of the GPU BVH neighbor-list pipeline of HOOMD-blue
(`NeighborListGPUTree.cu`): Morton encoding, Karras hierarchy generation,
bottom-up AABB propagation and stackless tree traversal.

The definitions below are shallow embeddings of the CUDA kernels; machine
`unsigned int` arithmetic is modelled on `Nat` with explicit `% 2^32`
wrapping where a C computation can wrap, `Scalar` values are modelled as
rationals, and each kernel thread becomes a pure function from its inputs
to the writes it performs.
-/

namespace HoomdNlist

/-! ### Bit-level infrastructure -/

/-- Number of leading zero bits of `x` viewed as a 32-bit word (CUDA `__clz`).
For `x = 0` this is `32`, matching `__clz(0) = 32`. -/
def clz32 (x : Nat) : Nat := 32 - Nat.size x

/-- Number of leading zero bits of `x` among the bit positions `k-1, …, 0`,
counted from position `k-1` downwards and stopping at the first set bit.
This is the specification-level reading of a leading-zero count. -/
def countLeadZeros (x : Nat) : Nat → Nat
  | 0 => 0
  | k + 1 => if x.testBit k then 0 else countLeadZeros x k + 1

/-- Number of leading common bits of `a` and `b` viewed as `k`-bit words:
walk from the most significant bit downwards while the bits agree. -/
def lcpFrom (a b : Nat) : Nat → Nat
  | 0 => 0
  | k + 1 => if a.testBit k = b.testBit k then lcpFrom a b k + 1 else 0

/-- Number of leading common bits of two 32-bit words. -/
def lcp32 (a b : Nat) : Nat := lcpFrom a b 32

lemma testBit_true_of_ge_of_lt {x k : Nat} (h1 : 2 ^ k ≤ x) (h2 : x < 2 ^ (k + 1)) :
    x.testBit k = true := by
  have hk : 0 < 2 ^ k := Nat.pos_pow_of_pos k (by omega)
  have hdiv1 : 1 ≤ x / 2 ^ k := (Nat.one_le_div_iff hk).mpr h1
  have hdiv2 : x / 2 ^ k < 2 := by
    have h2m : x < 2 ^ k * 2 := by
      have := h2; rw [Nat.pow_succ] at this; exact this
    exact (Nat.div_lt_iff_lt_mul hk).mpr (by omega)
  have hx : x / 2 ^ k = 1 := by omega
  rw [Nat.testBit_to_div_mod, hx]
  decide

lemma lt_two_pow_of_testBit_false {x k : Nat} (h2 : x < 2 ^ (k + 1))
    (hb : x.testBit k = false) : x < 2 ^ k := by
  by_contra hcon
  have := testBit_true_of_ge_of_lt (Nat.le_of_not_lt hcon) h2
  rw [hb] at this
  exact Bool.noConfusion this

/-- The specification-level leading-zero count agrees with `32 - size`. -/
lemma countLeadZeros_eq {x : Nat} : ∀ {k : Nat}, x < 2 ^ k →
    countLeadZeros x k = k - Nat.size x := by
  intro k
  induction k with
  | zero =>
      intro h
      interval_cases x
      simp [countLeadZeros]
  | succ k ih =>
      intro h
      by_cases hb : x.testBit k
      · have hge : 2 ^ k ≤ x := by
          by_contra hcon
          have := Nat.testBit_lt_two_pow (Nat.lt_of_not_le hcon)
          rw [hb] at this
          exact Bool.noConfusion this
        have hsz : k < Nat.size x := Nat.lt_size.mpr hge
        simp [countLeadZeros, hb]
        omega
      · have hxk : x < 2 ^ k := lt_two_pow_of_testBit_false h (Bool.of_not_eq_true hb)
        have hsz : Nat.size x ≤ k := Nat.size_le.mpr hxk
        simp only [countLeadZeros, hb, Bool.false_eq_true, if_false]
        rw [ih hxk]
        omega

lemma lcpFrom_eq_countLeadZeros (a b : Nat) : ∀ k, lcpFrom a b k = countLeadZeros (a ^^^ b) k := by
  intro k
  induction k with
  | zero => rfl
  | succ k ih =>
      simp only [lcpFrom, countLeadZeros, Nat.testBit_xor, ih]
      cases ha : a.testBit k <;> cases hb : b.testBit k <;> simp

/-- Bridge between `__clz` of a XOR and the number of leading common bits. -/
lemma clz32_xor_eq_lcp32 {a b : Nat} (ha : a < 2 ^ 32) (hb : b < 2 ^ 32) :
    clz32 (a ^^^ b) = lcp32 a b := by
  have hx : a ^^^ b < 2 ^ 32 := Nat.xor_lt_two_pow ha hb
  rw [lcp32, lcpFrom_eq_countLeadZeros, countLeadZeros_eq hx, clz32]

lemma shiftRight_eq_zero_iff {x n : Nat} : x >>> n = 0 ↔ x < 2 ^ n := by
  rw [Nat.shiftRight_eq_div_pow]
  exact Nat.div_eq_zero_iff (Nat.pos_pow_of_pos n (by omega))

lemma xor_shiftRight (a b n : Nat) : (a ^^^ b) >>> n = a >>> n ^^^ b >>> n := by
  apply Nat.eq_of_testBit_eq
  intro i
  simp [Nat.testBit_shiftRight, Nat.testBit_xor]

lemma shiftRight_mono {a b : Nat} (n : Nat) (h : a ≤ b) : a >>> n ≤ b >>> n := by
  simp only [Nat.shiftRight_eq_div_pow]
  exact Nat.div_le_div_right h

/-- A value between two numbers that agree above bit `m` also agrees with them
above bit `m`. -/
lemma shiftRight_eq_of_between {a b c m : Nat} (hab : a ≤ b) (hbc : b ≤ c)
    (h : a >>> m = c >>> m) : a >>> m = b >>> m :=
  Nat.le_antisymm (shiftRight_mono m hab) (h ▸ shiftRight_mono m hbc)

/-- Monotonicity of the common-prefix length on ordered triples: anything
between `a` and `c` shares at least as long a prefix with `a` as `c` does. -/
lemma clz32_xor_ge_of_between {a b c : Nat} (hab : a ≤ b) (hbc : b ≤ c) :
    clz32 (a ^^^ c) ≤ clz32 (a ^^^ b) := by
  unfold clz32
  have hsz : Nat.size (a ^^^ b) ≤ Nat.size (a ^^^ c) := by
    apply Nat.size_le.mpr
    have hlt : a ^^^ c < 2 ^ Nat.size (a ^^^ c) := Nat.lt_size_self _
    have h0 : (a ^^^ c) >>> Nat.size (a ^^^ c) = 0 := shiftRight_eq_zero_iff.mpr hlt
    rw [xor_shiftRight] at h0
    have hac : a >>> Nat.size (a ^^^ c) = c >>> Nat.size (a ^^^ c) := Nat.xor_eq_zero.mp h0
    have hab2 : a >>> Nat.size (a ^^^ c) = b >>> Nat.size (a ^^^ c) :=
      shiftRight_eq_of_between hab hbc hac
    have : (a ^^^ b) >>> Nat.size (a ^^^ c) = 0 := by
      rw [xor_shiftRight]
      exact Nat.xor_eq_zero.mpr hab2
    exact shiftRight_eq_zero_iff.mp this
  omega


/-! ### Morton codes (`expandBits`, `gpu_nlist_morton_codes_kernel`) -/

/-- `expandBits` from the kernel: expands a 10-bit integer into 30 bits by
inserting two zeros after each bit.  The multiplications stay below `2^32`
after each mask for every argument below `2^22`, so no wrap is modelled. -/
def expandBits (v : Nat) : Nat :=
  let v1 := (v * 0x00010001) &&& 0xFF0000FF
  let v2 := (v1 * 0x00000101) &&& 0x0F00F00F
  let v3 := (v2 * 0x00000011) &&& 0xC30C30C3
  (v3 * 0x00000005) &&& 0x49249249

/-- Specification-level bit spreading: keep the low `b` bits of `v`, putting
bit `i` of `v` at position `3*i` (two zero bits inserted after each bit). -/
def spread3 : Nat → Nat → Nat
  | _, 0 => 0
  | v, b + 1 => v % 2 + 8 * spread3 (v / 2) b

/-- The 30-bit Morton code emitted by the kernel for bin triple `(i, j, k)`:
`code = expandBits i * 4 + expandBits j * 2 + expandBits k`. -/
def mortonCode (i j k : Nat) : Nat := expandBits i * 4 + expandBits j * 2 + expandBits k

/-- `Scalar(1.00001)`, the in-range fraction bound of the Morton kernel. -/
def eps1 : ℚ := 100001 / 100000

abbrev Vec3 := ℚ × ℚ × ℚ

/-- Quantization `(unsigned int)(f * MORTON_CODE_N_BINS)` for `f ≥ 0`. -/
def binRaw (f : ℚ) : Nat := (Int.floor (f * 1024)).toNat

/-- The boundary fix-up of the kernel: a coordinate that lands exactly in bin
1024 is wrapped to bin 0 when the axis is periodic, and kept otherwise. -/
def wrapBin (b : Nat) (per : Bool) : Nat := if b = 1024 ∧ per = true then 0 else b

/-- The in-range test and per-axis binning of `gpu_nlist_morton_codes_kernel`
(lines 236-260): `none` models the silent early `return` for a particle whose
fraction is out of `[0, 1.00001)` on some axis. -/
def mortonBins (f : Vec3) (periodic : Bool × Bool × Bool) : Option (Nat × Nat × Nat) :=
  if f.1 < 0 ∨ f.1 ≥ eps1 ∨ f.2.1 < 0 ∨ f.2.1 ≥ eps1 ∨ f.2.2 < 0 ∨ f.2.2 ≥ eps1 then none
  else
    some (wrapBin (binRaw f.1) periodic.1, wrapBin (binRaw f.2.1) periodic.2.1,
      wrapBin (binRaw f.2.2) periodic.2.2)

/-- Full per-particle output of the Morton-code kernel: the 30-bit code, or
`none` when the particle is silently dropped.  -/
def mortonCodeOf (f : Vec3) (periodic : Bool × Bool × Bool) : Option Nat :=
  (mortonBins f periodic).map fun b => mortonCode b.1 b.2.1 b.2.2

/-! ### Karras hierarchy (`delta`, `determineRange`, `findSplit`) -/

/-- C conversion of a (possibly negative) integer to `unsigned int`. -/
def uwrap32 (j : Int) : Nat := (j % (2 ^ 32 : Int)).toNat

/-- `delta` from the kernel (lines 91-110): longest common prefix of the
Morton codes at `i` and `j`, `-1` when `j` is outside `[min_idx, max_idx]`
(the comparison happens after C converts `j` to `unsigned int`), and
`__clz(i ^ j)` as a tie-break when the two codes are equal. -/
def delta (codes : Nat → Nat) (i : Nat) (j : Int) (mn mx : Nat) : Int :=
  let ju := uwrap32 j
  if ju > mx ∨ ju < mn then -1
  else
    let firstCode := codes i
    let lastCode := codes ju
    if firstCode = lastCode then Int.ofNat (clz32 (i ^^^ ju))
    else Int.ofNat (clz32 (firstCode ^^^ lastCode))

/-- The do-while loop of `findSplit` (lines 176-195).  The loop halves `step`
on entry and exits once the halved step reaches 1, so any `fuel` at least the
initial `step` bounds the iteration count; the recursion is structural on
`fuel` so that the function evaluates inside the kernel. -/
def findSplitLoop (codes : Nat → Nat) (firstCode : Nat) (last commonPref : Nat) :
    Nat → Nat → Nat → Nat
  | 0, split, _ => split
  | fuel + 1, split, step =>
      let newSplit := split + (step + 1) / 2
      let split2 :=
        if newSplit < last ∧ clz32 (firstCode ^^^ codes newSplit) > commonPref then newSplit
        else split
      if 1 < (step + 1) / 2 then
        findSplitLoop codes firstCode last commonPref fuel split2 ((step + 1) / 2)
      else split2

/-- `findSplit` from the kernel (lines 159-198). -/
def findSplit (codes : Nat → Nat) (first last : Nat) : Nat :=
  let firstCode := codes first
  let lastCode := codes last
  if firstCode = lastCode then (first + last) / 2
  else
    findSplitLoop codes firstCode last (clz32 (firstCode ^^^ lastCode)) (last - first)
      first (last - first)

/-- The doubling loop of `determineRange` (lines 128-132).  `fuel` only bounds
the iteration count: on the kernel's arguments, where `minPref ≥ -1`, the
`delta` condition fails as soon as `idx + d*lmax` leaves `[mn, mx]`, which
happens well before the 128 doublings allowed below. -/
def lmaxLoop (codes : Nat → Nat) (idx : Nat) (d minPref : Int) (mn mx : Nat) :
    Nat → Nat → Nat
  | 0, lmax => lmax
  | fuel + 1, lmax =>
      if delta codes idx (idx + d * lmax) mn mx > minPref then
        lmaxLoop codes idx d minPref mn mx fuel (lmax * 2)
      else lmax

/-- The halving do-while loop of `determineRange` (lines 134-143); the loop
halves `step` on entry and stops at 1, so 128 iterations are never reached. -/
def lenLoop (codes : Nat → Nat) (idx : Nat) (d minPref : Int) (mn mx : Nat) :
    Nat → Nat → Nat → Nat
  | 0, len, _ => len
  | fuel + 1, len, step =>
      let step2 := step / 2
      let len2 :=
        if delta codes idx (idx + d * (len + step2)) mn mx > minPref then len + step2 else len
      if 1 < step2 then lenLoop codes idx d minPref mn mx fuel len2 step2 else len2

/-- `determineRange` from the kernel (lines 116-157). -/
def determineRange (codes : Nat → Nat) (mn mx idx : Nat) : Nat × Nat :=
  let forwardPref := delta codes idx ((idx : Int) + 1) mn mx
  let backwardPref := delta codes idx ((idx : Int) - 1) mn mx
  let d : Int := if forwardPref - backwardPref > 0 then 1 else -1
  let minPref := delta codes idx ((idx : Int) - d) mn mx
  let lmax := lmaxLoop codes idx d minPref mn mx 128 2
  let len := lenLoop codes idx d minPref mn mx 128 0 lmax
  if d > 0 then (idx, idx + len) else (uwrap32 ((idx : Int) - (len : Int)), idx)

/-! ### Hierarchy generation kernel (`gpu_nlist_gen_hierarchy_kernel`) -/

/-- `(count + L - 1)/L - 1` evaluated in `unsigned int` arithmetic, as in
line 303 of the kernel; for `count = 0` the subtraction wraps to `2^32 - 1`. -/
def internalCountU (cnt L : Nat) : Nat := ((cnt + L - 1) / L + (2 ^ 32 - 1)) % 2 ^ 32

def hierLocateGo (L idx : Nat) : List Nat → Nat → Nat → Nat → Nat × Nat × Nat × Nat
  | [], curType, _, _ => (curType, 0, 0, idx)
  | cnt :: rest, curType, _, maxI =>
      let minI2 := maxI
      let maxI2 := (maxI + internalCountU cnt L) % 2 ^ 32
      if idx < maxI2 then
        (curType, (minI2 + curType) % 2 ^ 32, (maxI2 + curType) % 2 ^ 32,
          (idx + curType) % 2 ^ 32)
      else hierLocateGo L idx rest (curType + 1) minI2 maxI2

/-- The per-type walk of `gpu_nlist_gen_hierarchy_kernel` (lines 296-315) that
assigns thread `idx` its type segment: the result is
`(cur_type, origin, end, node_idx)`.  When the loop runs off the end of the
type list without breaking, `origin`, `end` keep their initial value 0 and
`node_idx` stays `idx`, exactly as in the kernel. -/
def hierLocate (numPerType : List Nat) (L idx : Nat) : Nat × Nat × Nat × Nat :=
  hierLocateGo L idx numPerType 0 0 0

/-- A parent-pointer store performed by a hierarchy thread: `isLeaf` selects
between `d_leaf_parents` and `d_node_parents`. -/
structure HierWrite where
  isLeaf : Bool
  target : Nat
  value : Nat
deriving DecidableEq

/-- Parent-pointer writes performed by thread `idx` of
`gpu_nlist_gen_hierarchy_kernel` (lines 317-369). -/
def genHierarchyThread (codes : Nat → Nat) (numPerType : List Nat) (L idx : Nat) :
    List HierWrite :=
  let r := hierLocate numPerType L idx
  let curType := r.1
  let origin := r.2.1
  let endIdx := r.2.2.1
  let nodeIdx := r.2.2.2
  let rng := determineRange codes origin endIdx nodeIdx
  let first := rng.1
  let last := rng.2
  let split := findSplit codes first last
  (if split = first then [⟨true, split, idx⟩] else [⟨false, split - curType, idx⟩]) ++
  (if split + 1 = last then [⟨true, split + 1, idx⟩]
   else [⟨false, split - curType + 1, idx⟩]) ++
  (if nodeIdx = origin then [⟨false, idx, idx⟩] else [])

/-- Children encoding `(index << 1) | is_leaf` written to `d_node_children`
by thread `idx` of the hierarchy kernel. -/
def genHierarchyChildren (codes : Nat → Nat) (numPerType : List Nat) (L idx : Nat) :
    Nat × Nat :=
  let r := hierLocate numPerType L idx
  let curType := r.1
  let origin := r.2.1
  let endIdx := r.2.2.1
  let nodeIdx := r.2.2.2
  let rng := determineRange codes origin endIdx nodeIdx
  let first := rng.1
  let last := rng.2
  let split := findSplit codes first last
  (if split = first then split <<< 1 ||| 1 else (split - curType) <<< 1,
   if split + 1 = last then (split + 1) <<< 1 ||| 1 else (split - curType + 1) <<< 1)

/-- All parent-pointer writes of one launch of the hierarchy kernel with
`nInternal` threads. -/
def allHierWrites (codes : Nat → Nat) (numPerType : List Nat) (L nInternal : Nat) :
    List HierWrite :=
  (List.range nInternal).flatMap (genHierarchyThread codes numPerType L)

/-- How many threads wrote a parent pointer for the given node. -/
def writeCount (ws : List HierWrite) (isLeaf : Bool) (t : Nat) : Nat :=
  (ws.filter (fun w => w.isLeaf == isLeaf && w.target == t)).length

/-- The parent pointer a node ends up with (first write wins; under the
claimed exactly-once discipline the choice does not matter). -/
def lookupParent (ws : List HierWrite) (isLeaf : Bool) (t : Nat) : Nat :=
  ((ws.filter (fun w => w.isLeaf == isLeaf && w.target == t)).map (fun w => w.value)).headD 0

/-- Total number of leaves over all types: `sum of ceil(count/L)`. -/
def leavesTotal (numPerType : List Nat) (L : Nat) : Nat :=
  (numPerType.map (fun c => (c + L - 1) / L)).sum

/-- Specification-level count of internal nodes: a type with `n` leaves has
`n - 1` internal nodes, and a type with no leaves has none. -/
def specInternalTotal (numPerType : List Nat) (L : Nat) : Nat :=
  (numPerType.map (fun c => (c + L - 1) / L - 1)).sum

/-! ### Bounding-box propagation (`gpu_nlist_bubble_aabbs_kernel`) -/

/-- An AABB: upper and lower corner (the packed `.w` bookkeeping fields of the
kernel are modelled separately). -/
structure Box where
  upper : Vec3
  lower : Vec3
deriving DecidableEq

/-- Pointwise update of a memory modelled as a function. -/
def upd {α : Type} (f : Nat → α) (i : Nat) (v : α) : Nat → α :=
  fun n => if n = i then v else f n

def maxQ (a b : ℚ) : ℚ := if b > a then b else a
def minQ (a b : ℚ) : ℚ := if b < a then b else a

/-- Componentwise max of upper corners, as the three `if` statements of the
kernel (lines 619-621). -/
def mergeUpper (a b : Vec3) : Vec3 := (maxQ a.1 b.1, maxQ a.2.1 b.2.1, maxQ a.2.2 b.2.2)

/-- Componentwise min of lower corners (lines 626-628). -/
def mergeLower (a b : Vec3) : Vec3 := (minQ a.1 b.1, minQ a.2.1 b.2.1, minQ a.2.2 b.2.2)

/-- Shared memory of the bubble kernel: the per-internal-node visit counters
(`d_node_locks`), the flat AABB array (`d_tree_aabbs`, one `Box` per node,
leaves first) and a log of the internal-node AABB stores performed. -/
structure BubbleState where
  locks : Nat → Nat
  aabbs : Nat → Box
  writeLog : List Nat

/-- One leaf thread of `gpu_nlist_bubble_aabbs_kernel` (lines 572-638), run to
completion: the do-while walk upwards.  `fuel` bounds the number of loop
iterations; any value larger than the number of internal nodes plus one is
enough for every walk the kernel can perform, because on each continued
iteration the node counter of a fresh parent was seen at exactly 1. -/
def bubbleThreadGo (nodePar : Nat → Nat) (children : Nat → Nat × Nat)
    (nleafs : Nat) : Nat → Nat → Nat → Box → BubbleState → BubbleState
  | 0, _, _, _, st => st
  | fuel + 1, curChild, curParent, curBox, st =>
      let key := st.locks curParent
      let locks2 := upd st.locks curParent (key + 1)
      if key = 1 then
        let cs := children curParent
        let leftChild := cs.1
        let rightChild := cs.2
        let sib := if leftChild = curChild then rightChild else leftChild
        let sibShift := sib >>> 1
        let sibIdx :=
          sibShift +
            (if (leftChild = curChild ∧ rightChild % 2 = 0) ∨
                (rightChild = curChild ∧ leftChild % 2 = 0) then nleafs else 0)
        let sibBox := st.aabbs sibIdx
        let newBox : Box :=
          ⟨mergeUpper curBox.upper sibBox.upper, mergeLower curBox.lower sibBox.lower⟩
        let aabbs2 := upd st.aabbs (nleafs + curParent) newBox
        let st2 : BubbleState := ⟨locks2, aabbs2, st.writeLog ++ [curParent]⟩
        let newChild := curParent <<< 1
        let newParent := nodePar curParent
        if newChild ≠ newParent then
          bubbleThreadGo nodePar children nleafs fuel newChild newParent newBox st2
        else st2
      else { st with locks := locks2 }

/-- One full leaf thread: initial child is the encoded leaf
`(leaf << 1) | 1`, initial parent is `d_leaf_parents[leaf]`, and the carried
box is the leaf's own AABB. -/
def bubbleThread (leafPar nodePar : Nat → Nat) (children : Nat → Nat × Nat)
    (nleafs fuel : Nat) (leaf : Nat) (st : BubbleState) : BubbleState :=
  bubbleThreadGo nodePar children nleafs fuel (leaf <<< 1 ||| 1) (leafPar leaf)
    (st.aabbs leaf) st

/-- Run the leaf threads one after another in the order given — one
particular interleaving of the kernel's threads.  Locks start at zero
(`cudaMemset` in `gpu_nlist_bubble_aabbs`), the AABB array starts at the
given leaf boxes. -/
def bubbleRun (leafPar nodePar : Nat → Nat) (children : Nat → Nat × Nat)
    (nleafs fuel : Nat) (leafBoxes : Nat → Box) (order : List Nat) : BubbleState :=
  order.foldl (fun st l => bubbleThread leafPar nodePar children nleafs fuel l st)
    ⟨fun _ => 0, leafBoxes, []⟩

/-! ### Tree traversal (`gpu_nlist_traverse_tree_kernel`) -/

/-- The body-id sentinel `0xffffffff` marking a particle not in a rigid body. -/
def bodySentinel : Nat := 0xffffffff

/-- One entry of the leaf particle arrays: position (`d_leaf_xyzf.xyz`),
global particle index (`d_leaf_xyzf.w`) and body id (`d_leaf_db.y`). -/
structure LeafCand where
  pos : Vec3
  pidx : Nat
  cbody : Nat
deriving DecidableEq

/-- One node of the flattened AABB tree: bounds (`d_aabb_node_bounds`), the
skip distance (`upper.w`), the contained-particle count (`lower.w`) and the
head index into the leaf particle arrays (`d_aabb_node_head_idx`). -/
structure GpuNode where
  upper : Vec3
  skip : Nat
  lower : Vec3
  np : Nat
  headIdx : Nat

/-- All inputs of one thread of `gpu_nlist_traverse_tree_kernel`:
the global arrays plus the data the thread reads for its own particle. -/
structure TravInput where
  ntypes : Nat
  rcut : Nat → Nat → ℚ
  rbuff : ℚ
  capNmax : Nat → Nat
  trees : Nat → Nat × Nat
  nodes : Nat → GpuNode
  leafData : Nat → LeafCand
  images : Nat → Vec3
  nimages : Nat
  conditions : Nat → Nat
  filterBody : Bool
  myPidx : Nat
  posI : Vec3
  typeI : Nat
  bodyI : Nat
  headI : Nat

def vadd (a b : Vec3) : Vec3 := (a.1 + b.1, a.2.1 + b.2.1, a.2.2 + b.2.2)
def vsub (a b : Vec3) : Vec3 := (a.1 - b.1, a.2.1 - b.2.1, a.2.2 - b.2.2)
def dot (a b : Vec3) : ℚ := a.1 * b.1 + a.2.1 * b.2.1 + a.2.2 * b.2.2

/-- `s_r_list[typpair_idx(type_i, cur_pair_type)] = r_cut + r_buff`. -/
def rListI (inp : TravInput) (t : Nat) : ℚ := inp.rcut inp.typeI t + inp.rbuff

/-- Position of particle `i` in periodic image `im`. -/
def posImage (inp : TravInput) (im : Nat) : Vec3 := vadd inp.posI (inp.images im)

/-- The AABB overlap test of the kernel (lines 766-771), negated exactly as
written. -/
def boxOverlap (aabbUpper aabbLower ndUpper ndLower : Vec3) : Prop :=
  ¬ (aabbUpper.1 < ndLower.1 ∨ aabbLower.1 > ndUpper.1 ∨
     aabbUpper.2.1 < ndLower.2.1 ∨ aabbLower.2.1 > ndUpper.2.1 ∨
     aabbUpper.2.2 < ndLower.2.2 ∨ aabbLower.2.2 > ndUpper.2.2)

instance (a b c d : Vec3) : Decidable (boxOverlap a b c d) := by
  unfold boxOverlap
  infer_instance

/-- The stackless node walk of the kernel (lines 755-809) for one tree and one
image: returns the list of leaf-array indices scanned, in scan order.  An
overlapped node contributes its `np` member slots and the walk moves to the
next node; a non-overlapped node jumps ahead by its skip distance.  The
cursor strictly increases, so `numNodes` iterations of fuel always finish
the walk. -/
def travNodesGo (inp : TravInput) (aabbUpper aabbLower : Vec3) (numNodes headNode : Nat) :
    Nat → Nat → List Nat
  | 0, _ => []
  | fuel + 1, cur =>
      if cur < numNodes then
        let nd := inp.nodes (headNode + cur)
        if boxOverlap aabbUpper aabbLower nd.upper nd.lower then
          (List.range nd.np).map (fun p => nd.headIdx + p) ++
            travNodesGo inp aabbUpper aabbLower numNodes headNode fuel (cur + 1)
        else travNodesGo inp aabbUpper aabbLower numNodes headNode fuel (cur + 1 + nd.skip)
      else []

/-- The full stackless walk, starting at node 0. -/
def travNodes (inp : TravInput) (aabbUpper aabbLower : Vec3) (numNodes headNode : Nat) :
    List Nat :=
  travNodesGo inp aabbUpper aabbLower numNodes headNode numNodes 0

/-- The candidate stream of one traversal thread: for every pair type, every
image and every scanned leaf slot, the triple
`(cur_pair_type, cur_image, leaf slot)`, in loop order (lines 737-811). -/
def travCandidates (inp : TravInput) : List (Nat × Nat × Nat) :=
  (List.range inp.ntypes).flatMap fun t =>
    (List.range inp.nimages).flatMap fun im =>
      let rc := rListI inp t
      let pim := posImage inp im
      let aabbUpper : Vec3 := (pim.1 + rc, pim.2.1 + rc, pim.2.2 + rc)
      let aabbLower : Vec3 := (pim.1 - rc, pim.2.1 - rc, pim.2.2 - rc)
      (travNodes inp aabbUpper aabbLower (inp.trees t).1 (inp.trees t).2).map
        fun li => (t, im, li)

/-- Squared distance `dot(drij, drij)` between candidate `c` and the image
position of particle `i`. -/
def candDr2 (inp : TravInput) (c : Nat × Nat × Nat) : ℚ :=
  let cand := inp.leafData c.2.2
  let drij := vsub cand.pos (posImage inp c.2.1)
  dot drij drij

/-- The exclusion test of the kernel (lines 782-785): `j` equals `i`'s own
global index — in whatever image the candidate was found — or, with body
filtering on and `body_i` not the sentinel, the two bodies match. -/
def excludedCand (inp : TravInput) (cand : LeafCand) : Prop :=
  cand.pidx = inp.myPidx ∨
    (inp.filterBody = true ∧ inp.bodyI ≠ bodySentinel ∧ inp.bodyI = cand.cbody)

instance (inp : TravInput) (cand : LeafCand) : Decidable (excludedCand inp cand) := by
  unfold excludedCand
  infer_instance

/-- Thread-local traversal state: the running neighbor count `n_neigh_i` and
the `d_nlist` stores `(slot, value)` made so far. -/
structure TravState where
  n : Nat
  writes : List (Nat × Nat)
deriving DecidableEq

/-- The per-candidate body of the leaf scan (lines 775-801): skip excluded
candidates; otherwise, within the cutoff, store into the next slot only when
the running count is below `Nmax[type_i]`, and always bump the count. -/
def stepCand (inp : TravInput) (st : TravState) (c : Nat × Nat × Nat) : TravState :=
  let cand := inp.leafData c.2.2
  if excludedCand inp cand then st
  else
    let rc := rListI inp c.1
    if candDr2 inp c ≤ rc * rc then
      { n := st.n + 1,
        writes := st.writes ++
          (if st.n < inp.capNmax inp.typeI then [(inp.headI + st.n, cand.pidx)] else []) }
    else st

/-- Everything one traversal thread writes back (lines 813-819): the
`(index, value)` store to `d_n_neigh`, the store to `d_last_updated_pos`, the
`d_nlist` stores, and the final `d_conditions` array after the conditional
`atomicMax`. -/
structure TravResult where
  nNeighWrite : Nat × Nat
  lastPosWrite : Nat × Vec3 × Nat
  nlistWrites : List (Nat × Nat)
  conditions : Nat → Nat

/-- One full thread of `gpu_nlist_traverse_tree_kernel`. -/
def traverseParticle (inp : TravInput) : TravResult :=
  let st := (travCandidates inp).foldl (stepCand inp) ⟨0, []⟩
  { nNeighWrite := (inp.myPidx, st.n)
    lastPosWrite := (inp.myPidx, inp.posI, inp.typeI)
    nlistWrites := st.writes
    conditions := fun t =>
      if st.n ≥ inp.capNmax inp.typeI ∧ t = inp.typeI then max (inp.conditions t) st.n
      else inp.conditions t }

/-! ### C8 : bit expansion and Morton interleaving -/

set_option maxRecDepth 10000 in
lemma expandBits_eq_spread3 : ∀ v < 1024, expandBits v = spread3 v 10 := by decide

lemma spread3_bound (n : Nat) : ∀ v, 7 * spread3 v n ≤ 8 ^ n - 1 := by
  induction n with
  | zero => intro v; simp [spread3]
  | succ n ih =>
      intro v
      have h1 := ih (v / 2)
      have h2 : v % 2 ≤ 1 := by omega
      have h3 : 0 < 8 ^ n := Nat.pos_pow_of_pos n (by omega)
      have h4 : (8 : Nat) ^ (n + 1) = 8 * 8 ^ n := by ring
      simp only [spread3]
      omega

/-- C8: for 10-bit bin indices, `expandBits` inserts two zero bits after each
of the 10 bits (it agrees with the specification-level `spread3 · 10`), and
the emitted Morton code is `expand(i)*4 + expand(j)*2 + expand(k)`, a 30-bit
interleaving `4*spread3 i 10 + 2*spread3 j 10 + spread3 k 10 < 2^30`. -/
theorem expandBits_morton_interleave (i j k : Nat)
    (hi : i < 1024) (hj : j < 1024) (hk : k < 1024) :
    expandBits i = spread3 i 10 ∧
    mortonCode i j k = 4 * spread3 i 10 + 2 * spread3 j 10 + spread3 k 10 ∧
    mortonCode i j k < 2 ^ 30 := by
  have ei := expandBits_eq_spread3 i hi
  have ej := expandBits_eq_spread3 j hj
  have ek := expandBits_eq_spread3 k hk
  refine ⟨ei, ?_, ?_⟩
  · unfold mortonCode
    rw [ei, ej, ek]
    ring
  · have bi := spread3_bound 10 i
    have bj := spread3_bound 10 j
    have bk := spread3_bound 10 k
    have h810 : (8 : Nat) ^ 10 = 2 ^ 30 := by norm_num
    unfold mortonCode
    rw [ei, ej, ek]
    omega

/-- Witness for C8 at the concrete bins `(1, 2, 3)`. -/
theorem expandBits_morton_interleave_witness :
    (1 < 1024 ∧ 2 < 1024 ∧ 3 < 1024) ∧ mortonCode 1 2 3 < 2 ^ 30 :=
  ⟨by decide, (expandBits_morton_interleave 1 2 3 (by decide) (by decide) (by decide)).2.2⟩

/-! ### C3 : Morton encoder in-range test and boundary bins -/

/-- The per-axis bin claim C3 predicts: the boundary bin 1024 wraps to 0 when
the axis is periodic, and is treated as the in-range bin 1023 when it is not.
(Stated from the claim's words, for comparison with the kernel.) -/
def specBinClaimC3 (f : ℚ) (per : Bool) : Nat :=
  if binRaw f = 1024 then (if per then 0 else 1023) else binRaw f

set_option maxRecDepth 100000 in
/-- C3 counterexample: at fraction exactly 1 on a non-periodic axis the kernel
keeps bin 1024 — an eleventh-bit overflow bin — whereas the claim predicts the
in-range bin 1023. -/
theorem morton_bins_boundary_cex :
    mortonBins ((1 : ℚ), 0, 0) (false, false, false) = some (1024, 0, 0) ∧
    specBinClaimC3 1 false = 1023 ∧ ¬ (1024 ≤ 1023) := by
  with_unfolding_all exact of_decide_eq_true rfl

/-- C3 amended: a particle is silently dropped exactly when its fraction is
outside `[0, 1.00001)` on some axis; otherwise each coordinate is quantized by
floor into a bin in `[0, 1024]`, the boundary bin 1024 (reached exactly when
the fraction is ≥ 1) is wrapped to 0 when the axis is periodic, and is kept
as the out-of-range bin 1024 when the axis is not periodic. -/
theorem morton_bins_spec (f : Vec3) (per : Bool × Bool × Bool) :
    (mortonBins f per = none ↔
      f.1 < 0 ∨ f.1 ≥ eps1 ∨ f.2.1 < 0 ∨ f.2.1 ≥ eps1 ∨ f.2.2 < 0 ∨ f.2.2 ≥ eps1) ∧
    (0 ≤ f.1 → f.1 < eps1 → 0 ≤ f.2.1 → f.2.1 < eps1 → 0 ≤ f.2.2 → f.2.2 < eps1 →
      mortonBins f per =
        some (wrapBin (binRaw f.1) per.1, wrapBin (binRaw f.2.1) per.2.1,
          wrapBin (binRaw f.2.2) per.2.2)) ∧
    (∀ g : ℚ, 0 ≤ g → g < eps1 →
      binRaw g ≤ 1024 ∧ (binRaw g = 1024 ↔ 1 ≤ g) ∧
      (binRaw g = 1024 → wrapBin (binRaw g) true = 0) ∧
      wrapBin (binRaw g) false = binRaw g) := by
  refine ⟨?_, ?_, ?_⟩
  · unfold mortonBins
    split_ifs with h <;> simp [h]
  · intro h1 h2 h3 h4 h5 h6
    unfold mortonBins
    rw [if_neg]
    simp only [ge_iff_le, not_or, not_lt, not_le]
    exact ⟨h1, h2, h3, h4, h5, h6⟩
  · intro g hg0 hg1
    have hup : g * 1024 < 1025 := by
      have h1 : g * 1024 < eps1 * 1024 := by
        apply mul_lt_mul_of_pos_right hg1
        norm_num
      have h2 : eps1 * 1024 < 1025 := by norm_num [eps1]
      linarith
    have hfl : Int.floor (g * 1024) < 1025 := by
      apply Int.floor_lt.mpr
      push_cast
      exact hup
    refine ⟨?_, ?_, ?_, ?_⟩
    · unfold binRaw
      omega
    · constructor
      · intro hb
        have hfe : Int.floor (g * 1024) = 1024 := by
          unfold binRaw at hb
          omega
        have : ((1024 : ℤ) : ℚ) ≤ g * 1024 := Int.le_floor.mp (le_of_eq hfe.symm)
        push_cast at this
        linarith
      · intro hg
        have hge : (1024 : ℚ) ≤ g * 1024 := by linarith
        have : (1024 : ℤ) ≤ Int.floor (g * 1024) := by
          apply Int.le_floor.mpr
          push_cast
          exact hge
        unfold binRaw
        omega
    · intro hb
      simp [wrapBin, hb]
    · simp [wrapBin]

set_option maxRecDepth 100000 in
/-- Witness for the amended C3 at the fraction `(1, 1/2, 0)` with periodicity
`(true, false, true)`. -/
theorem morton_bins_spec_witness :
    ((0 : ℚ) ≤ 1 ∧ (1 : ℚ) < eps1 ∧ (0 : ℚ) ≤ 1 / 2 ∧ (1 / 2 : ℚ) < eps1 ∧
      (0 : ℚ) ≤ 0 ∧ (0 : ℚ) < eps1) ∧
    mortonBins ((1 : ℚ), 1 / 2, 0) (true, false, true) =
      some (wrapBin (binRaw 1) true, wrapBin (binRaw (1 / 2)) false,
        wrapBin (binRaw 0) true) := by
  constructor
  · with_unfolding_all exact of_decide_eq_true rfl
  · apply (morton_bins_spec ((1 : ℚ), 1 / 2, 0) (true, false, true)).2.1 <;>
      with_unfolding_all exact of_decide_eq_true rfl

/-! ### C6 : the `delta` longest-common-prefix function -/

lemma delta_eq (codes : Nat → Nat) (i : Nat) (j : Int) (mn mx : Nat) :
    delta codes i j mn mx =
      if uwrap32 j > mx ∨ uwrap32 j < mn then -1
      else if codes i = codes (uwrap32 j) then Int.ofNat (clz32 (i ^^^ uwrap32 j))
      else Int.ofNat (clz32 (codes i ^^^ codes (uwrap32 j))) := rfl

/-- C6: for indices and bounds in the kernel's operating range, `delta`
returns `-1` exactly when `j` lies outside `[min_idx, max_idx]` (including
negative `j`, which the C conversion to `unsigned int` sends above
`max_idx`); in range it returns the number of leading common bits of the two
32-bit Morton codes, except that for equal codes it returns the number of
leading common bits of the 32-bit indices (`__clz(i ^ j)`) as tie-break. -/
theorem delta_spec (codes : Nat → Nat) (i : Nat) (j : Int) (mn mx : Nat)
    (hcodes : ∀ n, codes n < 2 ^ 32) (hi : i < 2 ^ 31) (hmx : mx < 2 ^ 31)
    (hjlo : -(2 ^ 31) < j) (hjhi : j < 2 ^ 31) :
    ((j < (mn : Int) ∨ (mx : Int) < j) → delta codes i j mn mx = -1) ∧
    ((mn : Int) ≤ j → j ≤ (mx : Int) →
      (codes i ≠ codes j.toNat →
        delta codes i j mn mx = Int.ofNat (lcp32 (codes i) (codes j.toNat))) ∧
      (codes i = codes j.toNat →
        delta codes i j mn mx = Int.ofNat (lcp32 i j.toNat))) := by
  constructor
  · intro hout
    rw [delta_eq, if_pos]
    unfold uwrap32
    omega
  · intro h1 h2
    have hjnn : 0 ≤ j := le_trans (by positivity) h1
    have hju : uwrap32 j = j.toNat := by
      unfold uwrap32
      omega
    have hcond : ¬ (uwrap32 j > mx ∨ uwrap32 j < mn) := by
      rw [hju]
      omega
    have hjbound : j.toNat < 2 ^ 32 := by omega
    constructor
    · intro hne
      rw [delta_eq, if_neg hcond, hju, if_neg hne,
        clz32_xor_eq_lcp32 (hcodes i) (hcodes j.toNat)]
    · intro heq
      rw [delta_eq, if_neg hcond, hju, if_pos heq,
        clz32_xor_eq_lcp32 (by omega : i < 2 ^ 32) hjbound]

/-- Witness for C6 with codes `n ↦ min n 3` at `i = 0`, `j = 2`,
bounds `[0, 3]`. -/
theorem delta_spec_witness :
    ((0 : Nat) < 2 ^ 31 ∧ (3 : Nat) < 2 ^ 31 ∧
      ((0 : Nat) : Int) ≤ 2 ∧ (2 : Int) ≤ ((3 : Nat) : Int) ∧
      (fun n => min n 3) 0 ≠ (fun n => min n 3) (Int.toNat 2)) ∧
    delta (fun n => min n 3) 0 2 0 3 =
      Int.ofNat (lcp32 ((fun n => min n 3) 0) ((fun n => min n 3) (Int.toNat 2))) :=
  ⟨by constructor <;> [decide; constructor] <;> [decide; constructor] <;>
      [decide; constructor] <;> [decide; decide],
   ((delta_spec (fun n => min n 3) 0 2 0 3 (fun n => by show min n 3 < 2 ^ 32; omega) (by decide) (by decide)
      (by decide) (by decide)).2 (by decide) (by decide)).1 (by decide)⟩

/-! ### C7 : `findSplit` binary-search correctness -/

lemma findSplitLoop_eq (codes : Nat → Nat) (fc last cp fuel split step : Nat) :
    findSplitLoop codes fc last cp (fuel + 1) split step =
      if 1 < (step + 1) / 2 then
        findSplitLoop codes fc last cp fuel
          (if split + (step + 1) / 2 < last ∧
              clz32 (fc ^^^ codes (split + (step + 1) / 2)) > cp
            then split + (step + 1) / 2 else split) ((step + 1) / 2)
      else
        if split + (step + 1) / 2 < last ∧
            clz32 (fc ^^^ codes (split + (step + 1) / 2)) > cp
          then split + (step + 1) / 2 else split := rfl

/-- Invariant-based correctness of the `findSplit` do-while loop: starting
from a split satisfying the prefix property, with every satisfying index
below `split + step`, the loop returns the greatest index below `last`
satisfying the property.  `DC` is downward closure of the property (a
consequence of sortedness). -/
lemma findSplitLoop_correct (codes : Nat → Nat) (fc last cp f0 : Nat)
    (DC : ∀ s t, f0 ≤ s → s ≤ t → t < last → clz32 (fc ^^^ codes t) > cp →
      clz32 (fc ^^^ codes s) > cp) :
    ∀ step fuel split, step ≤ fuel → 0 < step → f0 ≤ split → split < last →
      clz32 (fc ^^^ codes split) > cp →
      (∀ t, t < last → clz32 (fc ^^^ codes t) > cp → t < split + step) →
      f0 ≤ findSplitLoop codes fc last cp fuel split step ∧
      findSplitLoop codes fc last cp fuel split step < last ∧
      clz32 (fc ^^^ codes (findSplitLoop codes fc last cp fuel split step)) > cp ∧
      (∀ t, t < last → clz32 (fc ^^^ codes t) > cp →
        t ≤ findSplitLoop codes fc last cp fuel split step) := by
  intro step
  induction step using Nat.strong_induction_on with
  | _ step ih =>
    intro fuel split hfuel hstep hf0 hsl hP hbound
    have hdbl : step ≤ 2 * ((step + 1) / 2) := by omega
    obtain ⟨fuel, rfl⟩ : ∃ f, fuel = f + 1 := ⟨fuel - 1, by omega⟩
    rw [findSplitLoop_eq]
    by_cases hrec : 1 < (step + 1) / 2
    · rw [if_pos hrec]
      by_cases hc : split + (step + 1) / 2 < last ∧
          clz32 (fc ^^^ codes (split + (step + 1) / 2)) > cp
      · rw [if_pos hc]
        apply ih ((step + 1) / 2) (by omega) fuel (split + (step + 1) / 2) (by omega)
          (by omega) (by omega) hc.1 hc.2
        intro t ht hPt
        have := hbound t ht hPt
        omega
      · rw [if_neg hc]
        apply ih ((step + 1) / 2) (by omega) fuel split (by omega) (by omega) hf0 hsl hP
        intro t ht hPt
        by_cases hns : split + (step + 1) / 2 < last
        · have hnP : ¬ (clz32 (fc ^^^ codes (split + (step + 1) / 2)) > cp) :=
            fun h => hc ⟨hns, h⟩
          by_contra hcon
          push_neg at hcon
          exact hnP (DC (split + (step + 1) / 2) t (by omega) (by omega) ht hPt)
        · have := hbound t ht hPt
          omega
    · rw [if_neg hrec]
      have hs2one : (step + 1) / 2 = 1 := by omega
      by_cases hc : split + (step + 1) / 2 < last ∧
          clz32 (fc ^^^ codes (split + (step + 1) / 2)) > cp
      · rw [if_pos hc]
        refine ⟨by omega, hc.1, hc.2, ?_⟩
        intro t ht hPt
        have := hbound t ht hPt
        omega
      · rw [if_neg hc]
        refine ⟨hf0, hsl, hP, ?_⟩
        intro t ht hPt
        by_cases hns : split + (step + 1) / 2 < last
        · have hnP : ¬ (clz32 (fc ^^^ codes (split + (step + 1) / 2)) > cp) :=
            fun h => hc ⟨hns, h⟩
          by_contra hcon
          push_neg at hcon
          exact hnP (DC (split + (step + 1) / 2) t (by omega) (by omega) ht hPt)
        · have := hbound t ht hPt
          omega

/-- C7: for a range of the sorted Morton-code array with `first < last`,
`findSplit` returns the even midpoint `(first + last) / 2` when the codes at
the two ends are identical, and otherwise the greatest index
`s ∈ [first, last - 1]` whose code shares a strictly longer common prefix
with `code[first]` than `code[last]` does. -/
theorem findSplit_correct (codes : Nat → Nat) (first last : Nat)
    (hfl : first < last) (hcodes : ∀ n, codes n < 2 ^ 32)
    (hsorted : ∀ a b, first ≤ a → a ≤ b → b ≤ last → codes a ≤ codes b) :
    (codes first = codes last → findSplit codes first last = (first + last) / 2) ∧
    (codes first ≠ codes last →
      first ≤ findSplit codes first last ∧ findSplit codes first last < last ∧
      lcp32 (codes first) (codes (findSplit codes first last)) >
        lcp32 (codes first) (codes last) ∧
      (∀ t, first ≤ t → t < last →
        lcp32 (codes first) (codes t) > lcp32 (codes first) (codes last) →
        t ≤ findSplit codes first last)) := by
  constructor
  · intro he
    unfold findSplit
    rw [if_pos he]
  · intro hne
    have hfs : findSplit codes first last =
        findSplitLoop codes (codes first) last (clz32 (codes first ^^^ codes last))
          (last - first) first (last - first) := by
      unfold findSplit
      rw [if_neg hne]
    set cp := clz32 (codes first ^^^ codes last) with hcp
    have hbridge : ∀ t, clz32 (codes first ^^^ codes t) = lcp32 (codes first) (codes t) :=
      fun t => clz32_xor_eq_lcp32 (hcodes first) (hcodes t)
    have DC : ∀ s t, first ≤ s → s ≤ t → t < last →
        clz32 (codes first ^^^ codes t) > cp → clz32 (codes first ^^^ codes s) > cp := by
      intro s t hs hst ht hPt
      have h1 : codes first ≤ codes s := hsorted first s (le_refl _) hs (by omega)
      have h2 : codes s ≤ codes t := hsorted s t hs hst (by omega)
      have := clz32_xor_ge_of_between h1 h2
      omega
    have hP0 : clz32 (codes first ^^^ codes first) > cp := by
      rw [Nat.xor_self]
      have hx : codes first ^^^ codes last ≠ 0 := fun h => hne (Nat.xor_eq_zero.mp h)
      have hsz : 0 < Nat.size (codes first ^^^ codes last) :=
        Nat.size_pos.mpr (Nat.pos_of_ne_zero hx)
      have hsz32 : Nat.size (codes first ^^^ codes last) ≤ 32 :=
        Nat.size_le.mpr (Nat.xor_lt_two_pow (hcodes first) (hcodes last))
      have hz : Nat.size 0 = 0 := Nat.size_zero
      rw [hcp]
      unfold clz32
      omega
    have hloop := findSplitLoop_correct codes (codes first) last cp first DC
      (last - first) (last - first) first (le_refl _) (by omega) (le_refl _) hfl hP0
      (fun t ht hPt => by omega)
    rw [hfs]
    refine ⟨hloop.1, hloop.2.1, ?_, ?_⟩
    · simp only [← hbridge]
      rw [← hcp]
      exact hloop.2.2.1
    · intro t hft ht hPt
      apply hloop.2.2.2 t ht
      simp only [← hbridge] at hPt
      rw [← hcp] at hPt
      exact hPt

/-- Witness for C7 with the sorted codes `n ↦ min n 3` on the range `[0, 3]`:
the split lies in `[0, 2]` and improves the common prefix. -/
theorem findSplit_correct_witness :
    ((0 : Nat) < 3 ∧ (fun n => min n 3) 0 ≠ (fun n => min n 3) 3) ∧
    (findSplit (fun n => min n 3) 0 3 < 3 ∧
      lcp32 ((fun n => min n 3) 0) ((fun n => min n 3) (findSplit (fun n => min n 3) 0 3)) >
        lcp32 ((fun n => min n 3) 0) ((fun n => min n 3) 3)) :=
  ⟨⟨by decide, by decide⟩, by
    have h := (findSplit_correct (fun n => min n 3) 0 3 (by decide)
      (fun n => by show min n 3 < 2 ^ 32; omega)
      (fun a b _ hab _ => by show min a 3 ≤ min b 3; omega)).2 (by decide)
    exact ⟨h.2.1, h.2.2.1⟩⟩

/-! ### Traverser characterization (C1, C2, C10) -/

lemma stepCand_eq (inp : TravInput) (st : TravState) (c : Nat × Nat × Nat) :
    stepCand inp st c =
      if excludedCand inp (inp.leafData c.2.2) then st
      else if candDr2 inp c ≤ rListI inp c.1 * rListI inp c.1 then
        { n := st.n + 1,
          writes := st.writes ++
            (if st.n < inp.capNmax inp.typeI
             then [(inp.headI + st.n, (inp.leafData c.2.2).pidx)] else []) }
      else st := rfl

/-- A candidate is accepted (counted) when it is not excluded and lies within
the pair cutoff. -/
def acceptCand (inp : TravInput) (c : Nat × Nat × Nat) : Prop :=
  ¬ excludedCand inp (inp.leafData c.2.2) ∧
    candDr2 inp c ≤ rListI inp c.1 * rListI inp c.1

instance (inp : TravInput) (c : Nat × Nat × Nat) : Decidable (acceptCand inp c) := by
  unfold acceptCand
  infer_instance

/-- The global particle indices of the accepted candidates, in scan order. -/
def acceptedJs (inp : TravInput) (l : List (Nat × Nat × Nat)) : List Nat :=
  (l.filter (fun c => decide (acceptCand inp c))).map (fun c => (inp.leafData c.2.2).pidx)

/-- The `d_nlist` stores produced by recording the values `js` starting at
running count `n0`: value number `k` goes to slot `headI + (n0 + k)` and is
stored only while the running count is below `cap`. -/
def slotWrites (cap headI : Nat) : Nat → List Nat → List (Nat × Nat)
  | _, [] => []
  | n0, j :: js =>
      (if n0 < cap then [(headI + n0, j)] else []) ++ slotWrites cap headI (n0 + 1) js

lemma slotWrites_mem {cap headI : Nat} :
    ∀ {js : List Nat} {n0 : Nat} {w : Nat × Nat}, w ∈ slotWrites cap headI n0 js →
      (∃ k, k < cap ∧ w.1 = headI + k) ∧ w.2 ∈ js := by
  intro js
  induction js with
  | nil =>
      intro n0 w hw
      simp [slotWrites] at hw
  | cons j js ih =>
      intro n0 w hw
      simp only [slotWrites, List.mem_append] at hw
      rcases hw with hw | hw
      · by_cases hn : n0 < cap
        · rw [if_pos hn] at hw
          simp only [List.mem_singleton] at hw
          subst hw
          exact ⟨⟨n0, hn, rfl⟩, List.mem_cons_self j js⟩
        · rw [if_neg hn] at hw
          simp at hw
      · have h := ih hw
        exact ⟨h.1, List.mem_cons_of_mem _ h.2⟩

/-- Characterization of the candidate fold: the final count is the initial
count plus the number of accepted candidates, and the stores append the
capacity-limited slot writes of the accepted indices. -/
lemma foldl_stepCand_char (inp : TravInput) :
    ∀ (l : List (Nat × Nat × Nat)) (st : TravState),
      l.foldl (stepCand inp) st =
        ⟨st.n + (acceptedJs inp l).length,
          st.writes ++ slotWrites (inp.capNmax inp.typeI) inp.headI st.n (acceptedJs inp l)⟩ := by
  intro l
  induction l with
  | nil =>
      intro st
      simp [acceptedJs, slotWrites]
  | cons c l ih =>
      intro st
      rw [List.foldl_cons]
      by_cases hacc : acceptCand inp c
      · have hstep : stepCand inp st c =
            { n := st.n + 1,
              writes := st.writes ++
                (if st.n < inp.capNmax inp.typeI
                 then [(inp.headI + st.n, (inp.leafData c.2.2).pidx)] else []) } := by
          rw [stepCand_eq, if_neg hacc.1, if_pos hacc.2]
        have hal : acceptedJs inp (c :: l) =
            (inp.leafData c.2.2).pidx :: acceptedJs inp l := by
          unfold acceptedJs
          rw [List.filter_cons, if_pos (decide_eq_true hacc)]
          simp
        rw [hstep, ih, hal]
        simp only [slotWrites, List.length_cons]
        rw [List.append_assoc]
        congr 1
        omega
      · have hstep : stepCand inp st c = st := by
          rw [stepCand_eq]
          by_cases hex : excludedCand inp (inp.leafData c.2.2)
          · rw [if_pos hex]
          · rw [if_neg hex, if_neg (fun hd => hacc ⟨hex, hd⟩)]
        have hal : acceptedJs inp (c :: l) = acceptedJs inp l := by
          unfold acceptedJs
          rw [List.filter_cons, if_neg (fun hcon => hacc (of_decide_eq_true hcon))]
        rw [hstep, ih, hal]

/-- Everything a traversal thread does, in closed form. -/
lemma traverseParticle_char (inp : TravInput) :
    traverseParticle inp =
      { nNeighWrite := (inp.myPidx, (acceptedJs inp (travCandidates inp)).length)
        lastPosWrite := (inp.myPidx, inp.posI, inp.typeI)
        nlistWrites :=
          slotWrites (inp.capNmax inp.typeI) inp.headI 0 (acceptedJs inp (travCandidates inp))
        conditions := fun t =>
          if (acceptedJs inp (travCandidates inp)).length ≥ inp.capNmax inp.typeI ∧
              t = inp.typeI
          then max (inp.conditions t) (acceptedJs inp (travCandidates inp)).length
          else inp.conditions t } := by
  unfold traverseParticle
  rw [foldl_stepCand_char inp (travCandidates inp) ⟨0, []⟩]
  simp

/-- A single all-encompassing leaf node used by the concrete traversal
instances below. -/
def nodeW : GpuNode :=
  { upper := (10, 10, 10), skip := 0, lower := (-10, -10, -10), np := 1, headIdx := 0 }

/-- Concrete traversal input for refuting C1: one type, one leaf node holding
only the thread's own particle, and two periodic images — the primary and a
shift by `(-3, 0, 0)` that brings the particle's own image within the
cutoff 3. -/
def cInpC1 : TravInput :=
  { ntypes := 1
    rcut := fun _ _ => 3
    rbuff := 0
    capNmax := fun _ => 8
    trees := fun _ => (1, 0)
    nodes := fun _ => nodeW
    leafData := fun _ => ⟨(0, 0, 0), 0, bodySentinel⟩
    images := fun im => if im = 1 then (-3, 0, 0) else (0, 0, 0)
    nimages := 2
    conditions := fun _ => 0
    filterBody := false
    myPidx := 0
    posI := (0, 0, 0)
    typeI := 0
    bodyI := bodySentinel
    headI := 0 }

/-- Like `cInpC1` but the leaf holds a distinct particle 5 at distance 1:
exactly one accepted candidate (the image-shifted copy is out of range). -/
def cInpW : TravInput :=
  { cInpC1 with leafData := fun _ => ⟨(1, 0, 0), 5, bodySentinel⟩ }

/-- Like `cInpW` with zero neighbor-slot capacity, to exercise overflow. -/
def cInpOvf : TravInput :=
  { cInpW with capNmax := fun _ => 0 }

/-- C2: for every traversal thread, an accepted neighbor is stored only into
slots `headI + k` with `k` below the per-type capacity `Nmax[type_i]`; the
running count always counts every accepted candidate, independent of the
capacity; the per-type overflow counter is raised to at least the final count
whenever the true count exceeds the capacity; and the per-particle neighbor
count and last-updated position are written unconditionally. -/
theorem traverse_capacity_overflow (inp : TravInput) :
    (traverseParticle inp).nNeighWrite =
      (inp.myPidx, (acceptedJs inp (travCandidates inp)).length) ∧
    (traverseParticle inp).lastPosWrite = (inp.myPidx, inp.posI, inp.typeI) ∧
    (∀ w ∈ (traverseParticle inp).nlistWrites,
      ∃ k, k < inp.capNmax inp.typeI ∧ w.1 = inp.headI + k) ∧
    ((acceptedJs inp (travCandidates inp)).length > inp.capNmax inp.typeI →
      (traverseParticle inp).conditions inp.typeI ≥
        (acceptedJs inp (travCandidates inp)).length) := by
  rw [traverseParticle_char]
  refine ⟨rfl, rfl, ?_, ?_⟩
  · intro w hw
    exact (slotWrites_mem hw).1
  · intro hov
    show (if (acceptedJs inp (travCandidates inp)).length ≥ inp.capNmax inp.typeI ∧
          inp.typeI = inp.typeI
        then max (inp.conditions inp.typeI) (acceptedJs inp (travCandidates inp)).length
        else inp.conditions inp.typeI) ≥ (acceptedJs inp (travCandidates inp)).length
    rw [if_pos ⟨by omega, rfl⟩]
    exact le_max_right _ _

/-- Witness for C2: a thread with one accepted neighbor and capacity zero
raises the overflow counter to at least its final count. -/
theorem traverse_capacity_overflow_witness :
    (acceptedJs cInpOvf (travCandidates cInpOvf)).length > cInpOvf.capNmax cInpOvf.typeI ∧
    (traverseParticle cInpOvf).conditions cInpOvf.typeI ≥
      (acceptedJs cInpOvf (travCandidates cInpOvf)).length :=
  ⟨by with_unfolding_all exact of_decide_eq_true rfl,
   (traverse_capacity_overflow cInpOvf).2.2.2
     (by with_unfolding_all exact of_decide_eq_true rfl)⟩

/-- C10: no store of a traversal thread ever records the thread's own
particle index — candidates with `j = i` are dropped in every pair type and
every periodic image, primary or not. -/
theorem traverse_no_self (inp : TravInput) :
    (∀ w ∈ (traverseParticle inp).nlistWrites, w.2 ≠ inp.myPidx) ∧
    (∀ st c, (inp.leafData c.2.2).pidx = inp.myPidx → stepCand inp st c = st) := by
  constructor
  · intro w hw
    rw [traverseParticle_char] at hw
    have hmem := (slotWrites_mem hw).2
    unfold acceptedJs at hmem
    rw [List.mem_map] at hmem
    obtain ⟨c, hc, hcw⟩ := hmem
    rw [List.mem_filter] at hc
    have hacc : acceptCand inp c := of_decide_eq_true hc.2
    intro heq
    exact hacc.1 (show excludedCand inp (inp.leafData c.2.2) from Or.inl (hcw.trans heq))
  · intro st c h
    rw [stepCand_eq, if_pos (show excludedCand inp (inp.leafData c.2.2) from Or.inl h)]

/-- Witness for C10: in the concrete traversal `cInpW` the single store is
`(0, 5)` and its value differs from the thread's own particle index. -/
theorem traverse_no_self_witness :
    ((0, 5) ∈ (traverseParticle cInpW).nlistWrites) ∧ ((0, 5).2 ≠ cInpW.myPidx) :=
  ⟨by with_unfolding_all exact of_decide_eq_true rfl,
   (traverse_no_self cInpW).1 (0, 5)
     (by with_unfolding_all exact of_decide_eq_true rfl)⟩

/-! ### C1 : the exclusion rule of the leaf scan -/

/-- The exclusion rule exactly as claim C1 states it: the candidate equals the
thread's own particle *in the primary image* (image 0), or body filtering is
on, the thread's body is not the sentinel, and the two bodies match.
(Stated from the claim's words, for comparison with the kernel.) -/
def specExcludedC1 (im myPidx j : Nat) (fb : Bool) (bodyI bodyJ : Nat) : Prop :=
  (j = myPidx ∧ im = 0) ∨ (fb = true ∧ bodyI ≠ bodySentinel ∧ bodyI = bodyJ)

instance (im myPidx j : Nat) (fb : Bool) (bodyI bodyJ : Nat) :
    Decidable (specExcludedC1 im myPidx j fb bodyI bodyJ) := by
  unfold specExcludedC1
  infer_instance

/-- Number of candidates that claim C1 requires to be counted: not excluded
by the claim's rule and within the cutoff. -/
def specCountC1 (inp : TravInput) : Nat :=
  ((travCandidates inp).filter fun c =>
    decide (¬ specExcludedC1 c.2.1 inp.myPidx (inp.leafData c.2.2).pidx inp.filterBody
        inp.bodyI (inp.leafData c.2.2).cbody ∧
      candDr2 inp c ≤ rListI inp c.1 * rListI inp c.1)).length

set_option maxRecDepth 600000 in
/-- C1 counterexample: in `cInpC1` the thread meets its own particle again in
the non-primary image 1, within the cutoff.  The claim's exclusion rule does
not exclude it (the index match is outside the primary image, body filtering
is off), so the claim predicts one counted neighbor, but the kernel excludes
`j == i` in every image and counts zero. -/
theorem traverse_exclusion_cex :
    specCountC1 cInpC1 = 1 ∧
    (traverseParticle cInpC1).nNeighWrite = (0, 0) ∧
    ¬ specExcludedC1 1 cInpC1.myPidx 0 cInpC1.filterBody cInpC1.bodyI bodySentinel ∧
    candDr2 cInpC1 (0, 1, 0) ≤ rListI cInpC1 0 * rListI cInpC1 0 ∧
    (stepCand cInpC1 ⟨0, []⟩ (0, 1, 0)).n = 0 := by
  with_unfolding_all exact of_decide_eq_true rfl

/-- C1 amended: a leaf candidate is excluded exactly when its global index
equals the thread's own particle index — in whatever periodic image the
candidate is met, primary or not — or when body filtering is enabled, the
thread's body id is not the sentinel, and both particles carry the same body
id; every non-excluded candidate within the cutoff increments the count. -/
theorem step_exclusion_amended (inp : TravInput) (st : TravState) (c : Nat × Nat × Nat) :
    (excludedCand inp (inp.leafData c.2.2) ↔
      (inp.leafData c.2.2).pidx = inp.myPidx ∨
        (inp.filterBody = true ∧ inp.bodyI ≠ bodySentinel ∧
          inp.bodyI = (inp.leafData c.2.2).cbody)) ∧
    (excludedCand inp (inp.leafData c.2.2) → stepCand inp st c = st) ∧
    (¬ excludedCand inp (inp.leafData c.2.2) →
      candDr2 inp c ≤ rListI inp c.1 * rListI inp c.1 →
      (stepCand inp st c).n = st.n + 1) ∧
    (¬ excludedCand inp (inp.leafData c.2.2) →
      ¬ candDr2 inp c ≤ rListI inp c.1 * rListI inp c.1 →
      stepCand inp st c = st) := by
  refine ⟨Iff.rfl, ?_, ?_, ?_⟩
  · intro h
    rw [stepCand_eq, if_pos h]
  · intro h1 h2
    rw [stepCand_eq, if_neg h1, if_pos h2]
  · intro h1 h2
    rw [stepCand_eq, if_neg h1, if_neg h2]

/-- Witness for the amended C1: in `cInpW` the candidate in the primary image
is not excluded, lies within the cutoff, and is counted. -/
theorem step_exclusion_amended_witness :
    (¬ excludedCand cInpW (cInpW.leafData 0)) ∧
    candDr2 cInpW (0, 0, 0) ≤ rListI cInpW 0 * rListI cInpW 0 ∧
    (stepCand cInpW ⟨0, []⟩ (0, 0, 0)).n = 0 + 1 :=
  ⟨by with_unfolding_all exact of_decide_eq_true rfl,
   by with_unfolding_all exact of_decide_eq_true rfl,
   (step_exclusion_amended cInpW ⟨0, []⟩ (0, 0, 0)).2.2.1
     (by with_unfolding_all exact of_decide_eq_true rfl)
     (by with_unfolding_all exact of_decide_eq_true rfl)⟩

/-! ### C4 : hierarchy generation on duplicate Morton codes -/

/-- Sorted per-leaf Morton codes `[0, 0, 1]` — two coincident leaves, as
produced by coincident or same-bin particles. -/
def codesC4 : Nat → Nat := fun n => [0, 0, 1].getD n 0

set_option maxRecDepth 600000 in
/-- C4 (evidence of a code bug): on the sorted codes `[0, 0, 1]` of a single
type with three leaves (`num_per_type = [12]`, `PARTICLES_PER_LEAF = 4`), the
equal-code tie-break `__clz(i ^ j)` — which does not offset the index prefix
past the 32 code bits — makes thread 1's `determineRange` collapse to the
empty range `[1, 1]`.  Leaf 0 then never receives a parent pointer, and
`d_node_parents[2]` is written although only internal nodes 0 and 1 exist. -/
theorem gen_hierarchy_orphan :
    (codesC4 0 ≤ codesC4 1 ∧ codesC4 1 ≤ codesC4 2) ∧
    leavesTotal [12] 4 = 3 ∧
    determineRange codesC4 0 2 1 = (1, 1) ∧
    writeCount (allHierWrites codesC4 [12] 4 2) true 0 = 0 ∧
    writeCount (allHierWrites codesC4 [12] 4 2) false 2 = 1 := by
  with_unfolding_all exact of_decide_eq_true rfl

/-! ### C9 : zero-particle types in the segment walk -/

/-- Per-type particle counts with an empty first type. -/
def numsC9 : List Nat := [0, 8, 8]

set_option maxRecDepth 600000 in
/-- C9 (evidence of a code bug): for a type with zero particles the unsigned
internal-node count `(0 + L - 1)/L - 1` wraps to `2^32 - 1`; with counts
`[0, 8, 8]` and `L = 4` the segment walk then assigns thread 0 to the empty
type 0 with node range `[0, 2^32 - 1]`, and the kernel's thread budget
`nleafs - ntypes = 1` is one short of the two internal nodes the two
non-empty types need. -/
theorem hier_internal_count_underflow :
    internalCountU 0 4 = 2 ^ 32 - 1 ∧
    numsC9.getD 0 0 = 0 ∧
    hierLocate numsC9 4 0 = (0, 0, 2 ^ 32 - 1, 0) ∧
    leavesTotal numsC9 4 - numsC9.length = 1 ∧
    specInternalTotal numsC9 4 = 2 ∧
    leavesTotal numsC9 4 - numsC9.length < specInternalTotal numsC9 4 := by
  with_unfolding_all exact of_decide_eq_true rfl

/-! ### C5 : bounding-box propagation -/

/-- Sorted, pairwise distinct per-leaf Morton codes `[0, 1, 2, 7]` for a
single type with four leaves. -/
def codesC5 : Nat → Nat := fun n => [0, 1, 2, 7].getD n 0

/-- The parent/children arrays the hierarchy kernel builds on `codesC5`
(`num_per_type = [16]`, `PARTICLES_PER_LEAF = 4`, three internal nodes). -/
def hierWsC5 : List HierWrite := allHierWrites codesC5 [16] 4 3

def leafParC5 : Nat → Nat := fun l => lookupParent hierWsC5 true l

def nodeParC5 : Nat → Nat := fun n => lookupParent hierWsC5 false n

def childrenC5 : Nat → Nat × Nat := fun n => genHierarchyChildren codesC5 [16] 4 n

def leafBoxesC5 : Nat → Box := fun l => ⟨((l : ℚ), 0, 0), ((l : ℚ), 0, 0)⟩

/-- One complete execution of the bubble kernel on the `codesC5` tree, with
the four leaf threads interleaved sequentially. -/
def runC5 : BubbleState :=
  bubbleRun leafParC5 nodeParC5 childrenC5 4 5 leafBoxesC5 [0, 1, 2, 3]

set_option maxRecDepth 600000 in
/-- C5 (evidence of a code bug): on the tree the hierarchy kernel itself
builds from the sorted distinct codes `[0, 1, 2, 7]`, node 1's parent is
node 2, so the termination test `cur_child != cur_parent` — which compares
the bit-shifted child id `2*1` against the raw parent index 2 — stops the
surviving thread after processing node 1.  Nodes 0 and 2 end with visit
counters at 1 instead of 2, and their AABBs are never written: only node 1
appears in the write log. -/
theorem bubble_walk_stops_early :
    (codesC5 0 < codesC5 1 ∧ codesC5 1 < codesC5 2 ∧ codesC5 2 < codesC5 3) ∧
    (nodeParC5 1 = 2 ∧ 2 = 2 * 1) ∧
    runC5.locks 0 = 1 ∧ runC5.locks 1 = 2 ∧ runC5.locks 2 = 1 ∧
    runC5.writeLog = [1] := by
  with_unfolding_all exact of_decide_eq_true rfl

end HoomdNlist
